import Mathlib

/-!
Verification development for the locomote-sh build-tools repository.

The development shallowly embeds the command execution engine
(src/unnamed/part_004), the core commands (src/unnamed/part_003,
src/lib/core-commands.js, src/lib/commands.js, src/unnamed/part_005),
the git wrapper (src/lib/git.js), the process-runner support functions
(src/unnamed/part_002) and the change batchers
(src/lib/server/file-api.js, src/unnamed/part_002) into Lean, and
proves or refutes the frozen specification claims against the
embedding.
-/

set_option autoImplicit false

namespace BuildTools

/-! ## Association lists

JavaScript objects are modelled as insertion-ordered association
lists from string keys to values.  Property read takes the first
matching entry; property assignment overwrites an existing entry in
place and otherwise appends, which matches JavaScript object
semantics when keys are unique (as they are for objects built by
assignment). -/

/-- Read a property: first entry with the given key, if any. -/
def getA {α : Type} (l : List (String × α)) (k : String) : Option α :=
  match l with
  | [] => none
  | kv :: rest => if kv.1 = k then some kv.2 else getA rest k

/-- Test whether an entry with the given key is present. -/
def hasA {α : Type} (l : List (String × α)) (k : String) : Bool :=
  match l with
  | [] => false
  | kv :: rest => kv.1 = k || hasA rest k

/-- Assign a property: replace the value of an existing entry in
place, or append a new entry. -/
def setA {α : Type} (l : List (String × α)) (k : String) (v : α) : List (String × α) :=
  if hasA l k then
    l.map (fun kv => if kv.1 = k then (k, v) else kv)
  else
    l ++ [(k, v)]

/-- Number of entries carrying the given key. -/
def countA {α : Type} (l : List (String × α)) (k : String) : Nat :=
  (l.filter (fun kv => kv.1 = k)).length

/-- Key list of an association list. -/
def keysA {α : Type} (l : List (String × α)) : List String :=
  l.map (fun kv => kv.1)

/-! ## Scopes and the template evaluator

A scope (the execution environment of a command) is a flat mapping
from variable names to string values (spec section 3).  The template
evaluator models the external tinytemper collaborator: it substitutes
brace-delimited placeholder names in a string by their scope values
(spec section 4.3).  An unresolved placeholder is left literal, which
is one of the two policies the specification allows. -/

/-- A flat variable scope: insertion-ordered mapping from names to
string values. -/
abbrev Scope := List (String × String)

/-- Scan characters up to a closing brace, returning the placeholder
name and the remaining characters, or none when no closing brace
follows. -/
def readRef : List Char → Option (List Char × List Char)
  | [] => none
  | c :: cs =>
      if c = '\x7d' then some ([], cs)
      else
        match readRef cs with
        | some (n, r) => some (c :: n, r)
        | none => none

/-- Evaluate template text against a scope: a placeholder written as
an opening brace, a name and a closing brace is replaced by the value
of that name in the scope, and left literal when the name is unbound
or the closing brace is missing.  Models TT.eval of the external
tinytemper package (spec section 4.3).  The fuel argument makes the
recursion structural; it never runs out when it starts at the length
of the character list. -/
def ttEvalChars (s : Scope) : Nat → List Char → List Char
  | 0, _ => []
  | _ + 1, [] => []
  | f + 1, c :: cs =>
      if c = '\x7b' then
        match readRef cs with
        | some (n, r) =>
            (match getA s (String.mk n) with
             | some v => v.data
             | none => c :: n ++ ['\x7d']) ++ ttEvalChars s f r
        | none => c :: ttEvalChars s f cs
      else c :: ttEvalChars s f cs

/-- Evaluate a template string against a scope. -/
def ttEval (tmpl : String) (s : Scope) : String :=
  String.mk (ttEvalChars s tmpl.data.length tmpl.data)

/-! ## Command execution engine

Embedding of the command compiler and execution engine of
src/unnamed/part_004.  A compiled declarative definition keeps its
positional argument names, local variable templates, action list and
silent-fail flag.  Scope objects are mutable JavaScript objects: they
live in a store (a list of scope values addressed by index) so that
in-place mutation by one action is visible to the following actions
while a copy taken with Object.assign is a distinct object.

Inline operations (actions or command definitions given directly as
functions in the source) are modelled by a small closed set of
representative operations: writing a value into the scope object (as
the mktemp and read-build-record commands do), evaluating a template
against the scope and recording the result on an observation trace
(as the exec command does when it resolves its arguments), doing
nothing (the rem command) and throwing (any failing operation).
Console logging performed by the source is not modelled. -/

/-- An inline function appearing directly in an action list.  It
receives the current scope object. -/
inductive AnonOp where
  | setVarA (k v : String)
  | logA (t : String)
  | failA (msg : String)

/-- A command definition supplied directly as a function.  The cd and
rem implementations are embedded from src/unnamed/part_003; failF
stands for any implementation that throws. -/
inductive FnImpl where
  | cdF
  | remF
  | failF (msg : String)

/-- One action of a compiled command: either a string action already
split into a command name and argument templates, or a function
action. -/
inductive Action where
  | call (aname : String) (aargs : List String)
  | anon (op : AnonOp)

/-- A compiled declarative command definition (the properties read
from the definition in compileCommand, src/unnamed/part_004 lines
54-61). -/
structure CompiledCmd where
  args : List String
  vars : List (String × String)
  actions : List Action
  silentFail : Bool

/-- An entry of the Commands registry: either a directly attached
function or a compiled declarative command. -/
inductive CmdImpl where
  | fn (f : FnImpl)
  | cmd (c : CompiledCmd)

/-- The Commands registry object, mapping names to command
functions. -/
abbrev Registry := List (String × CmdImpl)

/-- The mutable world of the engine: the store of scope objects,
addressed by index, plus the observation trace. -/
structure St where
  objs : List Scope
  trace : List String

/-- Read a scope object from the store. -/
def readObj (objs : List Scope) (i : Nat) : Scope :=
  (objs.get? i).getD []

/-- Overwrite a scope object in the store. -/
def writeObj (objs : List Scope) (i : Nat) (s : Scope) : List Scope :=
  objs.set i s

/-- Join an argument list with single spaces, as cargs.join does. -/
def joinSpace : List String → String
  | [] => ""
  | [x] => x
  | x :: rest => x ++ " " ++ joinSpace rest

/-- Add the local variables to the scope, each template evaluated
against the parent environment (src/unnamed/part_004 lines
109-111). -/
def addVars (env scope : Scope) (vars : List (String × String)) : Scope :=
  vars.foldl (fun sc nv => setA sc nv.1 (ttEval nv.2 env)) scope

/-- Walk the positional argument names with their indices, binding
each name whose argument is provided and truthy (a non-empty string),
the argument template evaluated against the parent environment
(src/unnamed/part_004 lines 112-118). -/
def bindArgsFrom (argNames : List String) (idx : Nat) (cargs : List String)
    (env scope : Scope) : Scope :=
  match argNames with
  | [] => scope
  | a :: rest =>
      bindArgsFrom rest (idx + 1) cargs env
        (match cargs.get? idx with
         | some carg => if carg ≠ "" then setA scope a (ttEval carg env) else scope
         | none => scope)

/-- Bind positional arguments into the scope (src/unnamed/part_004
lines 112-118). -/
def bindArgs (argNames : List String) (cargs : List String) (env scope : Scope) : Scope :=
  bindArgsFrom argNames 0 cargs env scope

/-- The local scope a compiled command derives for one invocation: a
copy of the caller environment, then the local variables, then the
bound positional arguments, then the reserved raw joined-argument
entry (src/unnamed/part_004 lines 106-120). -/
def deriveScope (c : CompiledCmd) (env : Scope) (cargs : List String) : Scope :=
  setA (bindArgs c.args cargs env (addVars env env c.vars)) "__args__" (joinSpace cargs)

/-- A pending unit of engine work: run one action, run an action
sequence, or invoke a command, always against the scope object at the
given store index. -/
inductive Task where
  | act (a : Action) (sid : Nat)
  | seq (acts : List Action) (sid : Nat)
  | inv (impl : CmdImpl) (sid : Nat) (cargs : List String)

/-- The scope object a task operates on. -/
def Task.sid : Task → Nat
  | .act _ s => s
  | .seq _ s => s
  | .inv _ s _ => s

/-- Run an inline function action against the scope object at the
given index. -/
def runAnon : AnonOp → Nat → St → St × Option String
  | .setVarA k v, sid, st =>
      ({ st with objs := writeObj st.objs sid (setA (readObj st.objs sid) k v) }, none)
  | .logA t, sid, st =>
      ({ st with trace := st.trace ++ [ttEval t (readObj st.objs sid)] }, none)
  | .failA m, _, st => (st, some m)

/-- Run a function command implementation.  The cd command requires a
non-empty first argument and writes it into the cwd entry of the
scope object it was handed (src/unnamed/part_003 lines 282-286). -/
def runFn : FnImpl → Nat → List String → St → St × Option String
  | .cdF, sid, cargs, st =>
      match cargs.head? with
      | some d =>
          if d = "" then (st, some "cd: <dir> argument is required")
          else ({ st with objs := writeObj st.objs sid (setA (readObj st.objs sid) "cwd" d) }, none)
      | none => (st, some "cd: <dir> argument is required")
  | .remF, _, _, st => (st, none)
  | .failF m, _, _, st => (st, some m)

/-- The execution engine of src/unnamed/part_004.  A string action
resolves its command in the registry, evaluates the argument
templates against the current scope and invokes the command function
with the current scope object (lines 91-101).  An action sequence
runs strictly in order and stops at the first error (lines 121-127).
Invoking a compiled command derives a fresh local scope object from
the caller scope and runs the action sequence against it; an error is
swallowed exactly when the definition set silentFail, and otherwise
rethrown (lines 104-136).  The second component of the result is the
propagated error, none meaning successful completion.  Fuel bounds
the call depth; exhaustion reports an error. -/
def run (reg : Registry) : Nat → Task → St → St × Option String
  | 0, _, st => (st, some "call depth limit reached")
  | _ + 1, .act (.anon op) sid, st => runAnon op sid st
  | fuel + 1, .act (.call aname aargs) sid, st =>
      match getA reg aname with
      | none => (st, some ("Command not found: " ++ aname))
      | some impl =>
          run reg fuel (.inv impl sid (aargs.map (fun t => ttEval t (readObj st.objs sid)))) st
  | _ + 1, .seq [] _, st => (st, none)
  | fuel + 1, .seq (a :: rest) sid, st =>
      match run reg fuel (.act a sid) st with
      | (st1, none) => run reg fuel (.seq rest sid) st1
      | (st1, some e) => (st1, some e)
  | _ + 1, .inv (.fn f) sid cargs, st => runFn f sid cargs st
  | fuel + 1, .inv (.cmd c) sid cargs, st =>
      match run reg fuel (.seq c.actions st.objs.length)
          { st with objs := st.objs ++ [deriveScope c (readObj st.objs sid) cargs] } with
      | (st2, none) => (st2, none)
      | (st2, some e) => if c.silentFail then (st2, none) else (st2, some e)

/-- Run a named command (runCommand, src/unnamed/part_004 lines
212-222): look the command up and call it with the given environment
object and arguments. -/
def runCommand (reg : Registry) (fuel : Nat) (name : String) (sid : Nat)
    (args : List String) (st : St) : St × Option String :=
  match getA reg name with
  | none => (st, some ("Bad command name: " ++ name))
  | some impl => run reg fuel (.inv impl sid args) st

/-- An action is safe for a scope key when running it cannot rewrite
that key of the scope object it is handed: an inline write to a
different key, an observation, a failure, or a call to any command
(a compiled command works on its own copy; of the embedded function
commands only cd writes, and only the cwd key). -/
def keySafe (reg : Registry) (k : String) : Action → Bool
  | .anon (.setVarA k2 _) => k2 ≠ k
  | .anon _ => true
  | .call aname _ =>
      match getA reg aname with
      | some (.fn .cdF) => k ≠ "cwd"
      | _ => true

/-! ## Child process environment projection

The exec and run commands project the scope into the environment
variable mapping of the spawned process.  The source iterates
Object.keys of the scope and reads each value; since JavaScript
object keys are unique, this is the entry list of the scope. -/

/-- Test whether one string starts with another. -/
def strStarts (s p : String) : Bool :=
  p.data.isPrefixOf s.data

/-- Upper-case a string character by character, as toUpperCase
does. -/
def strUpper (s : String) : String :=
  String.mk (s.data.map Char.toUpper)

/-- Drop the first n characters of a string, as slice(n) does. -/
def strDrop (s : String) (n : Nat) : String :=
  String.mk (s.data.drop n)

/-- An environment-variable mapping handed to a spawned process. -/
abbrev EnvMap := List (String × String)

/-- Runtime environment of the exec command (src/unnamed/part_003
lines 349-356, identically src/lib/core-commands.js lines 199-206):
the scope keys beginning with the reserved underscore are filtered
out, and the remaining entries are copied as upper-cased
LOCOMOTE_-prefixed variables on top of a copy of the process
environment. -/
def execRenv (base : EnvMap) (env : Scope) : EnvMap :=
  (env.filter (fun kv => ! strStarts kv.1 "_")).foldl
    (fun r kv => setA r ("LOCOMOTE_" ++ strUpper kv.1) kv.2) base

/-- Runtime environment of the run command (src/lib/commands.js lines
148-155): the same reserved-key filter, applied inside the fold, with
an empty base object. -/
def runRenv (env : Scope) : EnvMap :=
  env.foldl
    (fun r kv =>
      if strStarts kv.1 "_" then r
      else setA r ("LOCOMOTE_" ++ strUpper kv.1) kv.2)
    []

/-- Runtime environment of the older run command variant
(src/unnamed/part_005 lines 102-107): every scope key is copied, with
no reserved-key filter at all. -/
def oldRunRenv (env : Scope) : EnvMap :=
  env.foldl (fun r kv => setA r ("LOCOMOTE_" ++ strUpper kv.1) kv.2) []

/-! ## External process invocation commands -/

/-- Result of one external process invocation as the process runner
delivers it: exit code, stdout lines and stderr lines. -/
structure ProcResult where
  code : Int
  outLines : List String
  errLines : List String

/-- One line of console output, tagged by the stream it came from. -/
inductive LogLine where
  | out (s : String)
  | err (s : String)
deriving DecidableEq

/-- The exec core command (src/unnamed/part_003 lines 344-369)
evaluated against the behaviour pr of the underlying process: it
requires a command argument, projects the scope into the runtime
environment, streams the stdout and stderr lines of the process to
the console sinks, and throws whenever the exit code is non-zero.
The result is the console log together with the propagated error, if
any. -/
def coreExec (base : EnvMap) (env : Scope) (args : List String)
    (pr : EnvMap → String → List String → ProcResult) : List LogLine × Option String :=
  match args with
  | [] => ([], some "exec: <command> argument is required")
  | command :: cargs =>
      if command = "" then ([], some "exec: <command> argument is required")
      else if (pr (execRenv base env) command cargs).code ≠ 0 then
        ((pr (execRenv base env) command cargs).outLines.map LogLine.out
          ++ (pr (execRenv base env) command cargs).errLines.map LogLine.err,
         some ("Command \"" ++ joinSpace args ++ "\" exited with code "
           ++ toString (pr (execRenv base env) command cargs).code))
      else
        ((pr (execRenv base env) command cargs).outLines.map LogLine.out
          ++ (pr (execRenv base env) command cargs).errLines.map LogLine.err,
         none)

/-- The run core command (src/lib/commands.js lines 139-166)
evaluated against the behaviour pr of the underlying process: it
requires a command argument and a workspace environment entry,
projects the scope, streams the output, and then merely logs the exit
code — it completes successfully whatever the code was. -/
def runCmd (env : Scope) (args : List String)
    (pr : EnvMap → String → List String → ProcResult) : List LogLine × Option String :=
  match args with
  | [] => ([], some "run: <command> argument is required")
  | command :: cargs =>
      if command = "" then ([], some "run: <command> argument is required")
      else
        match getA env "workspace" with
        | none => ([], some "run: <workspace> env var is required")
        | some w =>
            if w = "" then ([], some "run: <workspace> env var is required")
            else
              ((pr (runRenv env) command cargs).outLines.map LogLine.out
                ++ (pr (runRenv env) command cargs).errLines.map LogLine.err
                ++ [LogLine.out ("Command \"" ++ command ++ " " ++ joinSpace args
                     ++ "\" exited with code "
                     ++ toString (pr (runRenv env) command cargs).code)],
               none)

/-- Result of one git invocation through the git helper of
src/lib/git.js lines 20-27: exit code plus the collected stdout and
stderr lines. -/
structure GitResult where
  code : Int
  stdout : List String
  stderr : List String

/-- The isOK helper of src/lib/git.js lines 59-63: surface every
stderr line to the console sink and report whether the exit code was
zero. -/
def isOK (res : GitResult) : List LogLine × Bool :=
  (res.stderr.map LogLine.err, res.code = 0)

/-! ## Process runner line streaming

The support exec function (src/unnamed/part_002 lines 200-229)
accumulates stdout and stderr data chunks into text buffers and
drains them line by line to sink callbacks, keeping the trailing
partial line buffered until a newline or process exit. -/

/-- Split a character buffer at newline characters.  The result
always has one element more than the number of newlines; the final
element is the trailing (possibly incomplete) line.  Models the
split of src/unnamed/part_002 line 183. -/
def splitLines : List Char → List (List Char)
  | [] => [[]]
  | c :: rest =>
      if c = '\n' then [] :: splitLines rest
      else
        match splitLines rest with
        | [] => [[c]]
        | l :: ls => (c :: l) :: ls

/-- The drain helper (src/unnamed/part_002 lines 181-198): split the
buffer into lines; while input may still follow, hold the final line
back as the starting contents of the next buffer and sink the rest;
once the input is fully read, sink every line.  The first component
lists the lines passed to the sink, in order; the second is the
retained buffer. -/
def drain (buffer : List Char) (done : Bool) : List (List Char) × List Char :=
  if done then (splitLines buffer, [])
  else ((splitLines buffer).dropLast, (splitLines buffer).getLastD [])

/-- One data event of a running process: a chunk of stdout or stderr
text. -/
inductive ProcEv where
  | outD (chunk : List Char)
  | errD (chunk : List Char)

/-- Streaming state of the exec process runner: the lines already
passed to each sink and the two retained buffers. -/
structure PRState where
  outSunk : List (List Char)
  errSunk : List (List Char)
  outBuf : List Char
  errBuf : List Char

/-- Handle one data event (src/unnamed/part_002 lines 213-220):
append the chunk to the stream buffer and drain it. -/
def prStep (st : PRState) : ProcEv → PRState
  | .outD chunk =>
      { st with
        outSunk := st.outSunk ++ (drain (st.outBuf ++ chunk) false).1,
        outBuf := (drain (st.outBuf ++ chunk) false).2 }
  | .errD chunk =>
      { st with
        errSunk := st.errSunk ++ (drain (st.errBuf ++ chunk) false).1,
        errBuf := (drain (st.errBuf ++ chunk) false).2 }

/-- The exec process runner (src/unnamed/part_002 lines 209-229):
stream the data events through drain and, on process close, flush
both buffers with the done flag and resolve with the exit code.  The
result lists the stdout lines and stderr lines passed to the sinks
and the resolved code. -/
def prExec (events : List ProcEv) (code : Int) :
    List (List Char) × List (List Char) × Int :=
  ((events.foldl prStep ⟨[], [], [], []⟩).outSunk
     ++ (drain (events.foldl prStep ⟨[], [], [], []⟩).outBuf true).1,
   (events.foldl prStep ⟨[], [], [], []⟩).errSunk
     ++ (drain (events.foldl prStep ⟨[], [], [], []⟩).errBuf true).1,
   code)

/-- Concatenation of all stdout chunks of an event list. -/
def outData : List ProcEv → List Char
  | [] => []
  | .outD c :: rest => c ++ outData rest
  | .errD _ :: rest => outData rest

/-- Concatenation of all stderr chunks of an event list. -/
def errData : List ProcEv → List Char
  | [] => []
  | .outD _ :: rest => errData rest
  | .errD c :: rest => c ++ errData rest

/-- Prepend a partial line to the first line of a line list. -/
def glueFirst (pre : List Char) : List (List Char) → List (List Char)
  | [] => [pre]
  | h :: t => (pre ++ h) :: t

/-! ## Build record store

The write-build-record command (src/unnamed/part_003 lines 171-196)
persists a JSON object mapping repository#branch keys to commit
hashes under the target directory, with a read-modify-write merge.
The repository name, branch and commit parameters stand for the
fields Git.readInfo returns for the source path. -/

/-- A parsed build record file. -/
abbrev RecordMap := List (String × String)

/-- The files on disk that matter to the store, by path. -/
abbrev FileStore := List (String × RecordMap)

/-- The readJSON helper (src/unnamed/part_002 lines 260-274): a
missing file resolves with the supplied default when one is given,
and rejects otherwise. -/
def readJSON (fs : FileStore) (path : String) (dflt : Option RecordMap) :
    Except String RecordMap :=
  match getA fs path with
  | some m => .ok m
  | none =>
      match dflt with
      | some d => .ok d
      | none => .error "ENOENT"

/-- The writeJSON helper (src/unnamed/part_002 lines 279-284). -/
def writeJSON (fs : FileStore) (path : String) (m : RecordMap) : FileStore :=
  setA fs path m

/-- The record file contents at a path, an empty map when missing. -/
def readRecord (fs : FileStore) (path : String) : RecordMap :=
  (getA fs path).getD []

/-- The write-build-record command (src/unnamed/part_003 lines
171-196): read the existing record file with an empty-object
default, merge the single key for the source repository and branch,
and persist the result. -/
def writeBuildRecord (fs : FileStore) (recordPath name branch commit : String) :
    FileStore :=
  match readJSON fs recordPath (some []) with
  | .ok record => writeJSON fs recordPath (setA record (name ++ "#" ++ branch) commit)
  | .error _ => fs

/-! ## Change batchers

Two watchers exist in the source.  watchSource (src/unnamed/part_002
lines 96-119) drives the rebuild: its chokidar handler records only
change events in a single list, and its once-per-second tick invokes
the build callback with the captured list exactly when it is
non-empty.  watchFiles (src/lib/server/file-api.js lines 78-116)
drives the file database: add and change events enter an additions
list and unlink events a deletions list, and every half-second tick
captures and resets both lists and invokes addFiles and removeFiles
with them, with no emptiness guard. -/

/-- A file system event delivered by the watcher, with the path
already made relative to the watch root. -/
inductive FEvent where
  | addE (f : String)
  | changeE (f : String)
  | unlinkE (f : String)

/-- Rebuild trigger state of watchSource: the pending changed-file
list and the build invocations performed so far, each recorded as the
file list handed to the build callback. -/
structure WSState where
  changes : List String
  builds : List (List String)
deriving DecidableEq

/-- The chokidar handler of watchSource (src/unnamed/part_002 lines
104-106): only change events are recorded. -/
def wsEvent (st : WSState) (e : FEvent) : WSState :=
  match e with
  | .changeE f => { st with changes := st.changes ++ [f] }
  | _ => st

/-- One timer tick of watchSource (src/unnamed/part_002 lines
109-118): when the change list is non-empty it is captured, reset
and handed to the build callback; an empty list triggers nothing. -/
def wsTick (st : WSState) : WSState :=
  if st.changes.length ≠ 0 then { changes := [], builds := st.builds ++ [st.changes] }
  else st

/-- File-database updater state of watchFiles: the pending addition
and deletion lists plus the addFiles and removeFiles invocations
performed so far. -/
structure WFState where
  additions : List String
  deletions : List String
  addCalls : List (List String)
  removeCalls : List (List String)
deriving DecidableEq

/-- The chokidar handler of watchFiles (src/lib/server/file-api.js
lines 86-97): add and change events enter the additions list, unlink
events the deletions list. -/
def wfEvent (st : WFState) (e : FEvent) : WFState :=
  match e with
  | .addE f => { st with additions := st.additions ++ [f] }
  | .changeE f => { st with additions := st.additions ++ [f] }
  | .unlinkE f => { st with deletions := st.deletions ++ [f] }

/-- One timer tick of watchFiles (src/lib/server/file-api.js lines
100-114): both lists are captured and reset, and addFiles and
removeFiles are invoked with the captured lists on every tick,
whether or not they are empty. -/
def wfTick (st : WFState) : WFState :=
  { additions := [], deletions := [],
    addCalls := st.addCalls ++ [st.additions],
    removeCalls := st.removeCalls ++ [st.deletions] }

/-! ## Repository synchronizer: branch checkout

The checkout function (src/lib/git.js lines 44-57) lists the
remote-tracking refs and either checks the branch out from its
remote ref or bootstraps a fresh orphan branch.  The repository model
keeps the branch lists, the checked-out head, the tracked files
(index) and the untracked files of the working tree. -/

/-- Modelled working-copy state for branch checkout. -/
structure CRepo where
  localB : List String
  remoteB : List String
  head : String
  tracked : List String
  untracked : List String
deriving DecidableEq

/-- The remote-tracking ref path (src/lib/git.js line 35). -/
def remoteRefHead : String := "refs/remotes/origin/"

/-- Output of git branch -a --format %(refname) on the modelled
repository: the local heads, then the remote-tracking refs. -/
def branchARefs (r : CRepo) : List String :=
  r.localB.map (fun b => "refs/heads/" ++ b)
    ++ r.remoteB.map (fun b => remoteRefHead ++ b)

/-- listAllBranches (src/lib/git.js lines 37-42): keep the refs that
start with the remote-tracking path and strip it. -/
def listAllBranches (stdout : List String) : List String :=
  (stdout.filter (fun b => strStarts b remoteRefHead)).map
    (fun b => strDrop b remoteRefHead.length)

/-- The checkout function (src/lib/git.js lines 44-57) on the
modelled repository, returning the new state and the transcript of
git invocations.  When the branch is among the remote-tracking refs
it is checked out with checkout -B from the remote ref; otherwise a
fresh orphan branch is created, the index is emptied with rm
--cached -r . and untracked files are removed with clean -fd.  Only
the state components the claims mention are tracked; the worktree
contents installed by checkout -B are not modelled. -/
def checkoutG (r : CRepo) (branch : String) : CRepo × List (List String) :=
  if (listAllBranches (branchARefs r)).contains branch then
    ({ r with
       head := branch,
       localB := if r.localB.contains branch then r.localB else r.localB ++ [branch] },
     [["branch", "-a", "--format", "%(refname)"],
      ["checkout", "-B", branch, "origin/" ++ branch]])
  else
    ({ r with head := branch, tracked := [], untracked := [] },
     [["branch", "-a", "--format", "%(refname)"],
      ["checkout", "--orphan", branch],
      ["rm", "--cached", "-r", "."],
      ["clean", "-fd"]])

/-! ## Repository synchronizer: the push cycle

The git-push command the claim cites (src/lib/core-commands.js lines
79-108) stages with Git.addAll, whose result is isOK of git add -A .,
and commits and pushes whenever that is true.  The model tracks the
modified files of the working tree, the staged files, the number of
commits created and the number of push invocations. -/

/-- Modelled working-copy state for the push cycle. -/
structure PRepo where
  working : List String
  staged : List String
  commits : Nat
  pushes : Nat
deriving DecidableEq

/-- git add -A . stages every change and exits zero whether or not
anything changed. -/
def gitAddAllP (r : PRepo) : PRepo × Int :=
  ({ r with working := [], staged := r.staged ++ r.working }, 0)

/-- addAll of src/lib/git.js lines 65-67: isOK of git add -A ., true
whenever git add succeeds — also on a clean tree. -/
def addAllP (r : PRepo) : PRepo × Bool :=
  ((gitAddAllP r).1, (gitAddAllP r).2 = 0)

/-- git commit -m creates a commit exactly when the stage is
non-empty and exits non-zero otherwise. -/
def gitCommitP (r : PRepo) : PRepo × Int :=
  if r.staged.length ≠ 0 then ({ r with staged := [], commits := r.commits + 1 }, 0)
  else (r, 1)

/-- commit of src/lib/git.js lines 69-71: isOK of git commit. -/
def commitP (r : PRepo) : PRepo × Bool :=
  ((gitCommitP r).1, (gitCommitP r).2 = 0)

/-- push of src/lib/git.js lines 77-83: the branch argument is
required and the call throws before invoking git when it is missing
or empty. -/
def pushP (r : PRepo) (branch : Option String) : Except String (PRepo × Bool) :=
  match branch with
  | none => .error "git-push: branch name is required"
  | some b =>
      if b = "" then .error "git-push: branch name is required"
      else .ok ({ r with pushes := r.pushes + 1 }, true)

/-- The git-push command of src/lib/core-commands.js lines 79-108:
stage with addAll, treat its boolean result as evidence of changes,
and when it is true commit (ignoring the result) and push — the push
call passing no branch argument, exactly as in the source.  The
result carries the repository state, whether the no-change outcome
was reported, and the propagated error, if any. -/
def coreGitPush (r : PRepo) : PRepo × Bool × Option String :=
  match addAllP r with
  | (r1, hasChanges) =>
      if hasChanges then
        match commitP r1 with
        | (r2, _) =>
            match pushP r2 none with
            | .ok (r3, _) => (r3, false, none)
            | .error e => (r2, false, some e)
      else (r1, true, none)

/-- The git-push command of src/unnamed/part_003 lines 110-151
(without the optional notification): stage, attempt the commit, and
push only when the commit succeeded, reporting the no-change outcome
otherwise. -/
def p3GitPush (r : PRepo) (branch : String) : PRepo × Bool × Option String :=
  match addAllP r with
  | (r1, _) =>
      match commitP r1 with
      | (r2, committed) =>
          if committed then
            match pushP r2 (some branch) with
            | .ok (r3, _) => (r3, false, none)
            | .error e => (r2, false, some e)
          else (r2, true, none)

theorem getA_append {α : Type} (l₁ l₂ : List (String × α)) (k : String) :
    getA (l₁ ++ l₂) k = ((getA l₁ k).rec (getA l₂ k) (fun v => some v) : Option α) := by
  induction l₁ with
  | nil => simp [getA]
  | cons kv rest ih =>
      by_cases h : kv.1 = k <;> simp [getA, h, ih]

theorem getA_of_hasA_eq_false {α : Type} (l : List (String × α)) (k : String)
    (h : hasA l k = false) : getA l k = none := by
  induction l with
  | nil => rfl
  | cons kv rest ih =>
      simp only [hasA, Bool.or_eq_false_iff, decide_eq_false_iff_not] at h
      simp [getA, h.1, ih h.2]

theorem getA_map_replace_same {α : Type} (l : List (String × α)) (k : String) (v : α)
    (h : hasA l k = true) :
    getA (l.map (fun kv => if kv.1 = k then (k, v) else kv)) k = some v := by
  induction l with
  | nil => simp [hasA] at h
  | cons kv rest ih =>
      by_cases hk : kv.1 = k
      · simp [getA, hk]
      · simp only [hasA, Bool.or_eq_true, decide_eq_true_eq] at h
        rcases h with h | h
        · exact absurd h hk
        · simp only [List.map_cons, hk, if_false]
          simp only [getA, hk, if_false]
          exact ih h

theorem getA_map_replace_ne {α : Type} (l : List (String × α)) (k k' : String) (v : α)
    (h : k' ≠ k) :
    getA (l.map (fun kv => if kv.1 = k then (k, v) else kv)) k' = getA l k' := by
  induction l with
  | nil => rfl
  | cons kv rest ih =>
      by_cases hk : kv.1 = k
      · simp only [List.map_cons, hk, if_true]
        simp only [getA]
        have h1 : ¬ (k = k') := fun e => h e.symm
        have h2 : ¬ (kv.1 = k') := by rw [hk]; exact h1
        simp only [h1, h2, if_false]
        exact ih
      · simp only [List.map_cons, hk, if_false]
        simp only [getA]
        by_cases hkv : kv.1 = k'
        · simp [hkv]
        · simp only [hkv, if_false]; exact ih

theorem getA_setA_same {α : Type} (l : List (String × α)) (k : String) (v : α) :
    getA (setA l k v) k = some v := by
  unfold setA
  by_cases h : hasA l k
  · simp only [h, if_true]
    exact getA_map_replace_same l k v h
  · simp only [h, Bool.false_eq_true, if_false]
    rw [getA_append]
    rw [getA_of_hasA_eq_false l k (by simpa using h)]
    simp [getA]

theorem getA_setA_ne {α : Type} (l : List (String × α)) (k k' : String) (v : α)
    (h : k' ≠ k) : getA (setA l k v) k' = getA l k' := by
  unfold setA
  by_cases hh : hasA l k
  · simp only [hh, if_true]
    exact getA_map_replace_ne l k k' v h
  · simp only [hh, Bool.false_eq_true, if_false]
    rw [getA_append]
    cases hg : getA l k' with
    | none =>
        have h1 : ¬ (k = k') := fun e => h e.symm
        simp [getA, h1, hg]
    | some v2 => simp [hg]

theorem readRef_length : ∀ (cs n r : List Char), readRef cs = some (n, r) →
    r.length < cs.length := by
  intro cs
  induction cs with
  | nil => intro n r h; simp [readRef] at h
  | cons c cs ih =>
      intro n r h
      simp only [readRef] at h
      by_cases hc : c = '\x7d'
      · simp only [hc, if_true] at h
        cases h
        simp
      · simp only [hc, if_false] at h
        cases hrr : readRef cs with
        | none => rw [hrr] at h; cases h
        | some p =>
            rw [hrr] at h
            cases h
            have := ih p.1 p.2 (by rw [hrr])
            simpa using Nat.lt_succ_of_lt this

theorem readObj_writeObj_ne (objs : List Scope) (i j : Nat) (s : Scope)
    (h : i ≠ j) : readObj (writeObj objs j s) i = readObj objs i := by
  unfold readObj writeObj
  congr 1
  induction objs generalizing i j with
  | nil => rfl
  | cons x xs ih =>
      cases j with
      | zero =>
          cases i with
          | zero => exact absurd rfl h
          | succ i2 => rfl
      | succ j2 =>
          cases i with
          | zero => rfl
          | succ i2 => exact ih i2 j2 (fun e => h (by rw [e]))

theorem readObj_append_lt (objs rest : List Scope) (i : Nat)
    (h : i < objs.length) : readObj (objs ++ rest) i = readObj objs i := by
  unfold readObj
  congr 1
  induction objs generalizing i with
  | nil => simp at h
  | cons x xs ih =>
      cases i with
      | zero => rfl
      | succ i2 => exact ih i2 (Nat.lt_of_succ_lt_succ h)

/-- Store indices never shrink: running any task only overwrites or
appends scope objects. -/
theorem run_objs_length_le (reg : Registry) :
    ∀ fuel t st, st.objs.length ≤ ((run reg fuel t st).1).objs.length := by
  intro fuel
  induction fuel with
  | zero => intro t st; simp [run]
  | succ fuel ih =>
      intro t st
      cases t with
      | act a sid =>
          cases a with
          | anon op =>
              cases op with
              | setVarA k v => simp [run, runAnon, writeObj]
              | logA t2 => simp [run, runAnon]
              | failA m => simp [run, runAnon]
          | call aname aargs =>
              simp only [run]
              cases hg : getA reg aname with
              | none => simp
              | some impl => exact ih _ _
      | seq acts sid =>
          cases acts with
          | nil => simp [run]
          | cons a rest =>
              simp only [run]
              cases hr : run reg fuel (.act a sid) st with
              | mk st1 r =>
                  have h1 : st.objs.length ≤ st1.objs.length := by
                    have := ih (.act a sid) st
                    rw [hr] at this
                    exact this
                  cases r with
                  | none => exact Nat.le_trans h1 (ih _ _)
                  | some e => exact h1
      | inv impl sid cargs =>
          cases impl with
          | fn f =>
              cases f with
              | cdF =>
                  simp only [run, runFn]
                  cases cargs.head? with
                  | none => simp
                  | some d =>
                      by_cases hd : d = "" <;> simp [hd, writeObj]
              | remF => simp [run, runFn]
              | failF m => simp [run, runFn]
          | cmd c =>
              simp only [run]
              cases hr : run reg fuel (.seq c.actions st.objs.length)
                  { st with objs := st.objs ++ [deriveScope c (readObj st.objs sid) cargs] } with
              | mk st2 r =>
                  have h1 : st.objs.length + 1 ≤ st2.objs.length := by
                    have := ih (.seq c.actions st.objs.length)
                      { st with objs := st.objs ++ [deriveScope c (readObj st.objs sid) cargs] }
                    rw [hr] at this
                    simpa using this
                  have h2 : st.objs.length ≤ st2.objs.length :=
                    Nat.le_trans (Nat.le_succ _) h1
                  cases r with
                  | none => exact h2
                  | some e =>
                      by_cases hs : c.silentFail <;> simp [hs, h2]

/-- Frame property of a single task: a pre-existing scope object
other than the one the task operates on is never modified. -/
theorem run_frame (reg : Registry) :
    ∀ fuel t st i, i < st.objs.length → i ≠ t.sid →
      readObj ((run reg fuel t st).1).objs i = readObj st.objs i := by
  intro fuel
  induction fuel with
  | zero => intro t st i hlt hne; simp [run]
  | succ fuel ih =>
      intro t st i hlt hne
      cases t with
      | act a sid =>
          cases a with
          | anon op =>
              cases op with
              | setVarA k v =>
                  simp only [run, runAnon]
                  exact readObj_writeObj_ne _ _ _ _ hne
              | logA t2 => simp [run, runAnon]
              | failA m => simp [run, runAnon]
          | call aname aargs =>
              simp only [run]
              cases hg : getA reg aname with
              | none => simp
              | some impl => exact ih (.inv impl sid _) st i hlt hne
      | seq acts sid =>
          cases acts with
          | nil => simp [run]
          | cons a rest =>
              simp only [run]
              cases hr : run reg fuel (.act a sid) st with
              | mk st1 r =>
                  have h1 : readObj st1.objs i = readObj st.objs i := by
                    have := ih (.act a sid) st i hlt hne
                    rw [hr] at this
                    exact this
                  have hlt1 : i < st1.objs.length := by
                    have := run_objs_length_le reg fuel (.act a sid) st
                    rw [hr] at this
                    exact Nat.lt_of_lt_of_le hlt this
                  cases r with
                  | none =>
                      have h2 := ih (.seq rest sid) st1 i hlt1 hne
                      exact h2.trans h1
                  | some e => exact h1
      | inv impl sid cargs =>
          cases impl with
          | fn f =>
              cases f with
              | cdF =>
                  simp only [run, runFn]
                  cases cargs.head? with
                  | none => simp
                  | some d =>
                      by_cases hd : d = ""
                      · simp [hd]
                      · simp only [hd, if_false]
                        exact readObj_writeObj_ne _ _ _ _ hne
              | remF => simp [run, runFn]
              | failF m => simp [run, runFn]
          | cmd c =>
              simp only [run]
              cases hr : run reg fuel (.seq c.actions st.objs.length)
                  { st with objs := st.objs ++ [deriveScope c (readObj st.objs sid) cargs] } with
              | mk st2 r =>
                  have hlt1 : i < st.objs.length + 1 := Nat.lt_succ_of_lt hlt
                  have hne1 : i ≠ st.objs.length := Nat.ne_of_lt hlt
                  have h1 : readObj st2.objs i
                      = readObj (st.objs ++ [deriveScope c (readObj st.objs sid) cargs]) i := by
                    have := ih (.seq c.actions st.objs.length)
                      { st with objs := st.objs ++ [deriveScope c (readObj st.objs sid) cargs] }
                      i (by simpa using hlt1) hne1
                    rw [hr] at this
                    exact this
                  have h2 : readObj st2.objs i = readObj st.objs i :=
                    h1.trans (readObj_append_lt _ _ _ hlt)
                  cases r with
                  | none => exact h2
                  | some e =>
                      by_cases hs : c.silentFail <;> simp [hs, h2]

/-- Frame property of a compiled command invocation: invoking a
compiled command leaves every pre-existing scope object untouched,
the caller scope included, because the command works on a fresh copy
of the caller scope. -/
theorem invoke_frame (reg : Registry) (fuel : Nat) (c : CompiledCmd)
    (sid : Nat) (cargs : List String) (st : St) (i : Nat)
    (hlt : i < st.objs.length) :
    readObj ((run reg fuel (.inv (.cmd c) sid cargs) st).1).objs i = readObj st.objs i := by
  cases fuel with
  | zero => simp [run]
  | succ fuel =>
      simp only [run]
      cases hr : run reg fuel (.seq c.actions st.objs.length)
          { st with objs := st.objs ++ [deriveScope c (readObj st.objs sid) cargs] } with
      | mk st2 r =>
          have h1 : readObj st2.objs i
              = readObj (st.objs ++ [deriveScope c (readObj st.objs sid) cargs]) i := by
            have := run_frame reg fuel (.seq c.actions st.objs.length)
              { st with objs := st.objs ++ [deriveScope c (readObj st.objs sid) cargs] }
              i (by simp; omega) (Nat.ne_of_lt hlt)
            rw [hr] at this
            exact this
          have h2 : readObj st2.objs i = readObj st.objs i :=
            h1.trans (readObj_append_lt _ _ _ hlt)
          cases r with
          | none => exact h2
          | some e =>
              by_cases hs : c.silentFail <;> simp [hs, h2]

theorem readObj_writeObj_same (objs : List Scope) (i : Nat) (s : Scope)
    (h : i < objs.length) : readObj (writeObj objs i s) i = s := by
  unfold readObj writeObj
  induction objs generalizing i with
  | nil => simp at h
  | cons x xs ih =>
      cases i with
      | zero => rfl
      | succ i2 => exact ih i2 (Nat.lt_of_succ_lt_succ h)

/-- Running one key-safe action preserves the binding of that key in
the scope object it runs against. -/
theorem act_key_preserve (reg : Registry) (fuel : Nat) (a : Action) (sid : Nat)
    (st : St) (k : String) (hsafe : keySafe reg k a = true)
    (hsid : sid < st.objs.length) :
    getA (readObj ((run reg fuel (.act a sid) st).1).objs sid) k
      = getA (readObj st.objs sid) k := by
  cases fuel with
  | zero => simp [run]
  | succ fuel =>
      cases a with
      | anon op =>
          cases op with
          | setVarA k2 v =>
              simp only [keySafe, decide_eq_true_eq] at hsafe
              simp only [run, runAnon]
              rw [readObj_writeObj_same _ _ _ hsid]
              exact getA_setA_ne _ _ _ _ (fun e => hsafe e.symm)
          | logA t2 => simp [run, runAnon]
          | failA m => simp [run, runAnon]
      | call aname aargs =>
          simp only [run]
          cases hg : getA reg aname with
          | none => simp
          | some impl =>
              cases impl with
              | fn f =>
                  cases fuel with
                  | zero => simp [run]
                  | succ fuel2 =>
                      cases f with
                      | cdF =>
                          simp only [keySafe, hg, decide_eq_true_eq] at hsafe
                          simp only [run, runFn]
                          cases (aargs.map (fun t => ttEval t (readObj st.objs sid))).head? with
                          | none => simp
                          | some d =>
                              by_cases hd : d = ""
                              · simp [hd]
                              · simp only [hd, if_false]
                                rw [readObj_writeObj_same _ _ _ hsid]
                                exact getA_setA_ne _ _ _ _ hsafe
                      | remF => simp [run, runFn]
                      | failF m => simp [run, runFn]
              | cmd c =>
                  rw [invoke_frame reg fuel c sid _ st sid hsid]

/-- Running a sequence of key-safe actions to completion preserves
the binding of that key in the scope object the sequence runs
against. -/
theorem seq_key_preserve (reg : Registry) :
    ∀ fuel acts sid st st2 k,
      (∀ a ∈ acts, keySafe reg k a = true) → sid < st.objs.length →
      run reg fuel (.seq acts sid) st = (st2, none) →
      getA (readObj st2.objs sid) k = getA (readObj st.objs sid) k := by
  intro fuel
  induction fuel with
  | zero =>
      intro acts sid st st2 k hsafe hsid hrun
      simp [run] at hrun
  | succ fuel ih =>
      intro acts sid st st2 k hsafe hsid hrun
      cases acts with
      | nil =>
          simp only [run] at hrun
          cases hrun
          rfl
      | cons a rest =>
          simp only [run] at hrun
          cases hr : run reg fuel (.act a sid) st with
          | mk st1 r =>
              rw [hr] at hrun
              cases r with
              | none =>
                  have h1 : getA (readObj st1.objs sid) k = getA (readObj st.objs sid) k := by
                    have := act_key_preserve reg fuel a sid st k
                      (hsafe a (by simp)) hsid
                    rw [hr] at this
                    exact this
                  have hsid1 : sid < st1.objs.length := by
                    have := run_objs_length_le reg fuel (.act a sid) st
                    rw [hr] at this
                    exact Nat.lt_of_lt_of_le hsid this
                  have h2 := ih rest sid st1 st2 k
                    (fun a2 ha2 => hsafe a2 (by simp [ha2])) hsid1 hrun
                  exact h2.trans h1
              | some e => cases hrun

theorem addVars_getA_ne (env : Scope) (vars : List (String × String)) (k : String)
    (h : ∀ nv ∈ vars, nv.1 ≠ k) :
    ∀ scope, getA (addVars env scope vars) k = getA scope k := by
  induction vars with
  | nil => intro scope; rfl
  | cons nv rest ih =>
      intro scope
      show getA (addVars env (setA scope nv.1 (ttEval nv.2 env)) rest) k = _
      rw [ih (fun nv2 h2 => h nv2 (List.mem_cons_of_mem _ h2))]
      exact getA_setA_ne _ _ _ _ (fun e => (h nv (by simp)) e.symm)

theorem bindArgsFrom_getA_ne :
    ∀ (argNames : List String) (idx : Nat) (cargs : List String) (env scope : Scope)
      (k : String), (∀ a ∈ argNames, a ≠ k) →
      getA (bindArgsFrom argNames idx cargs env scope) k = getA scope k := by
  intro argNames
  induction argNames with
  | nil => intro idx cargs env scope k h; rfl
  | cons a rest ih =>
      intro idx cargs env scope k h
      show getA (bindArgsFrom rest (idx + 1) cargs env _) k = _
      rw [ih (idx + 1) cargs env _ k (fun a2 h2 => h a2 (List.mem_cons_of_mem _ h2))]
      cases cargs.get? idx with
      | none => rfl
      | some carg =>
          dsimp only
          by_cases hc : carg = ""
          · rw [if_neg (fun hn => hn hc)]
          · rw [if_pos hc]
            exact getA_setA_ne _ _ _ _ (fun e => (h a (by simp)) e.symm)

theorem bindArgsFrom_append_empty :
    ∀ (argNames : List String) (idx : Nat) (cargs : List String) (env scope : Scope),
      bindArgsFrom argNames idx (cargs ++ [""]) env scope
        = bindArgsFrom argNames idx cargs env scope := by
  intro argNames
  induction argNames with
  | nil => intro idx cargs env scope; rfl
  | cons a rest ih =>
      intro idx cargs env scope
      show bindArgsFrom rest (idx + 1) (cargs ++ [""]) env _
          = bindArgsFrom rest (idx + 1) cargs env _
      rw [ih]
      congr 1
      by_cases hlt : idx < cargs.length
      · rw [List.get?_append hlt]
      · have hle : cargs.length ≤ idx := Nat.le_of_not_lt hlt
        rw [List.get?_eq_none.mpr hle, List.get?_append_right hle]
        by_cases heq : idx = cargs.length
        · have : idx - cargs.length = 0 := by omega
          rw [this]
          simp
        · have : cargs.length < idx := Nat.lt_of_le_of_ne hle (fun e => heq e.symm)
          have h1 : ([""] : List String).get? (idx - cargs.length) = none := by
            apply List.get?_eq_none.mpr
            simp
            omega
          rw [h1]

theorem bindArgsFrom_falsy :
    ∀ (argNames : List String) (idx : Nat) (cargs : List String) (env scope : Scope)
      (a : String),
      (∀ j, argNames.get? j = some a →
        (cargs.get? (idx + j) = none ∨ cargs.get? (idx + j) = some "")) →
      getA (bindArgsFrom argNames idx cargs env scope) a = getA scope a := by
  intro argNames
  induction argNames with
  | nil => intro idx cargs env scope a h; rfl
  | cons a0 rest ih =>
      intro idx cargs env scope a h
      show getA (bindArgsFrom rest (idx + 1) cargs env _) a = _
      have hshift : ∀ j, rest.get? j = some a →
          (cargs.get? (idx + 1 + j) = none ∨ cargs.get? (idx + 1 + j) = some "") := by
        intro j hj
        have := h (j + 1) (by simpa using hj)
        have harith : idx + (j + 1) = idx + 1 + j := by omega
        rw [harith] at this
        exact this
      rw [ih (idx + 1) cargs env _ a hshift]
      by_cases ha : a0 = a
      · subst ha
        have h0 := h 0 (by simp)
        rw [Nat.add_zero] at h0
        cases h0 with
        | inl h0 => rw [h0]
        | inr h0 => rw [h0]; simp
      · cases cargs.get? idx with
        | none => rfl
        | some carg =>
            dsimp only
            by_cases hc : carg = ""
            · rw [if_neg (fun hn => hn hc)]
            · rw [if_pos hc]
              exact getA_setA_ne _ _ _ _ (fun e => ha e.symm)

/-- C1: invoking a compiled command never mutates the caller scope.
The command derives a child scope object carrying the reserved raw
joined-argument entry and, for keys it does not shadow, the caller
bindings; every action of the sequence runs against that same child
object, so a value an action writes is still bound when later
key-safe actions run, and a template-evaluating action always reads
the current contents of the scope object; and the invocation leaves
every pre-existing scope object, the caller scope included,
unchanged. -/
theorem c1_child_scope_isolation :
    (∀ (reg : Registry) (fuel : Nat) (c : CompiledCmd) (sid : Nat)
        (cargs : List String) (st : St) (i : Nat), i < st.objs.length →
        readObj ((run reg fuel (.inv (.cmd c) sid cargs) st).1).objs i
          = readObj st.objs i)
    ∧ (∀ (c : CompiledCmd) (env : Scope) (cargs : List String),
        getA (deriveScope c env cargs) "__args__" = some (joinSpace cargs))
    ∧ (∀ (c : CompiledCmd) (env : Scope) (cargs : List String) (k : String),
        k ≠ "__args__" → (∀ nv ∈ c.vars, nv.1 ≠ k) → (∀ a ∈ c.args, a ≠ k) →
        getA (deriveScope c env cargs) k = getA env k)
    ∧ (∀ (reg : Registry) (fuel : Nat) (k v : String) (mid : List Action)
        (sid : Nat) (st st2 : St), sid < st.objs.length →
        (∀ a ∈ mid, keySafe reg k a = true) →
        run reg fuel (.seq (Action.anon (AnonOp.setVarA k v) :: mid) sid) st
          = (st2, none) →
        getA (readObj st2.objs sid) k = some v)
    ∧ (∀ (reg : Registry) (fuel : Nat) (t : String) (sid : Nat) (st : St),
        ((run reg (fuel + 1) (.act (Action.anon (AnonOp.logA t)) sid) st).1).trace
          = st.trace ++ [ttEval t (readObj st.objs sid)]) := by
  refine ⟨?_, ?_, ?_, ?_, ?_⟩
  · intro reg fuel c sid cargs st i hlt
    exact invoke_frame reg fuel c sid cargs st i hlt
  · intro c env cargs
    exact getA_setA_same _ _ _
  · intro c env cargs k h1 h2 h3
    unfold deriveScope bindArgs
    rw [getA_setA_ne _ _ _ _ h1]
    rw [bindArgsFrom_getA_ne _ _ _ _ _ _ h3]
    exact addVars_getA_ne env c.vars k h2 env
  · intro reg fuel k v mid sid st st2 hsid hsafe hrun
    cases fuel with
    | zero => simp [run] at hrun
    | succ fuel =>
        simp only [run] at hrun
        cases fuel with
        | zero =>
            simp [run] at hrun
        | succ fuel2 =>
            simp only [run, runAnon] at hrun
            have hsid1 : sid <
                (writeObj st.objs sid (setA (readObj st.objs sid) k v)).length := by
              simpa [writeObj] using hsid
            have h1 := seq_key_preserve reg (fuel2 + 1) mid sid
              { st with objs := writeObj st.objs sid (setA (readObj st.objs sid) k v) }
              st2 k hsafe hsid1 hrun
            rw [h1]
            show getA (readObj (writeObj st.objs sid (setA (readObj st.objs sid) k v)) sid) k
              = some v
            rw [readObj_writeObj_same _ _ _ hsid]
            exact getA_setA_same _ _ _
  · intro reg fuel t sid st
    simp [run, runAnon]

/-- Witness for C1: a concrete two-action sequence writing the
variable x and then evaluating a template leaves x bound to the
written value in the scope object. -/
theorem c1_child_scope_isolation_witness :
    getA (readObj ((run [] 3
        (Task.seq [Action.anon (AnonOp.setVarA "x" "1"), Action.anon (AnonOp.logA "t")] 0)
        ⟨[[("a", "b")]], []⟩).1).objs 0) "x" = some "1" :=
  c1_child_scope_isolation.2.2.2.1 [] 3 "x" "1" [Action.anon (AnonOp.logA "t")] 0
    ⟨[[("a", "b")]], []⟩ _ (by decide) (by decide) rfl

theorem silent_inv_none (reg : Registry) (fuel : Nat) (c : CompiledCmd) (sid : Nat)
    (cargs : List String) (st : St) (h : c.silentFail = true) :
    (run reg (fuel + 1) (.inv (.cmd c) sid cargs) st).2 = none := by
  simp only [run]
  cases hr : run reg fuel (.seq c.actions st.objs.length)
      { st with objs := st.objs ++ [deriveScope c (readObj st.objs sid) cargs] } with
  | mk st2 r =>
      cases r with
      | none => rfl
      | some e => simp [h]

/-- C2: a compiled command that sets silentFail swallows any failure
of its actions and reports successful completion; with the default
policy a failing action's error propagates with its message
unchanged; and suppression is scoped to the command declaring it: a
caller that invokes a silentFail command whose actions fail simply
continues with its remaining actions. -/
theorem c2_silent_fail_policy :
    (∀ (reg : Registry) (fuel : Nat) (c : CompiledCmd) (sid : Nat)
        (cargs : List String) (st : St), c.silentFail = true →
        (run reg (fuel + 1) (.inv (.cmd c) sid cargs) st).2 = none)
    ∧ (∀ (reg : Registry) (fuel : Nat) (c : CompiledCmd) (sid : Nat)
        (cargs : List String) (st : St) (m : String) (rest : List Action),
        c.silentFail = false →
        c.actions = Action.anon (AnonOp.failA m) :: rest →
        (run reg (fuel + 3) (.inv (.cmd c) sid cargs) st).2 = some m)
    ∧ (∀ (reg : Registry) (fuel : Nat) (inner : String) (cI : CompiledCmd)
        (sid : Nat) (st : St) (rest : List Action),
        getA reg inner = some (.cmd cI) → cI.silentFail = true →
        run reg (fuel + 3) (.seq (Action.call inner [] :: rest) sid) st
          = run reg (fuel + 2) (.seq rest sid)
              ((run reg (fuel + 1) (.inv (.cmd cI) sid []) st).1)) := by
  refine ⟨?_, ?_, ?_⟩
  · intro reg fuel c sid cargs st h
    exact silent_inv_none reg fuel c sid cargs st h
  · intro reg fuel c sid cargs st m rest hpol hacts
    simp only [run]
    rw [hacts]
    simp only [run, runAnon]
    simp [hpol]
  · intro reg fuel inner cI sid st rest hg hpol
    show (match run reg (fuel + 2) (.act (Action.call inner []) sid) st with
      | (st1, none) => run reg (fuel + 2) (.seq rest sid) st1
      | (st1, some e) => (st1, some e))
      = run reg (fuel + 2) (.seq rest sid) ((run reg (fuel + 1) (.inv (.cmd cI) sid []) st).1)
    have hact : run reg (fuel + 2) (.act (Action.call inner []) sid) st
        = run reg (fuel + 1) (.inv (.cmd cI) sid []) st := by
      simp only [run, hg]
      rfl
    rw [hact]
    cases hr : run reg (fuel + 1) (.inv (.cmd cI) sid []) st with
    | mk st1 r =>
        have h2 : r = none := by
          have := silent_inv_none reg fuel cI sid [] st hpol
          rw [hr] at this
          exact this
        subst h2
        rfl

/-- Witness for C2: a command with a single always-failing action and
the default policy propagates exactly that error message. -/
theorem c2_silent_fail_policy_witness :
    (run [] 3 (Task.inv (CmdImpl.cmd ⟨[], [], [Action.anon (AnonOp.failA "boom")], false⟩)
        0 []) ⟨[[]], []⟩).2 = some "boom" :=
  c2_silent_fail_policy.2.1 [] 0 ⟨[], [], [Action.anon (AnonOp.failA "boom")], false⟩
    0 [] ⟨[[]], []⟩ "boom" [] rfl rfl

/-- C10: a positional argument whose provided value is falsy, in
particular the empty string, is not bound: providing a trailing empty
string binds exactly what omitting the argument binds, and a name all
of whose argument positions carry falsy values keeps its previous
scope binding. -/
theorem c10_falsy_args_unbound :
    (∀ (argNames cargs : List String) (env scope : Scope),
        bindArgs argNames (cargs ++ [""]) env scope = bindArgs argNames cargs env scope)
    ∧ (∀ (argNames cargs : List String) (env scope : Scope) (a : String),
        (∀ j, argNames.get? j = some a →
          (cargs.get? j = none ∨ cargs.get? j = some "")) →
        getA (bindArgs argNames cargs env scope) a = getA scope a) := by
  constructor
  · intro argNames cargs env scope
    exact bindArgsFrom_append_empty argNames 0 cargs env scope
  · intro argNames cargs env scope a h
    apply bindArgsFrom_falsy argNames 0 cargs env scope a
    intro j hj
    simpa using h j hj

theorem foldl_filter_if {α β : Type} (p : α → Bool) (f : β → α → β) :
    ∀ (l : List α) (acc : β),
      l.foldl (fun r x => if p x then r else f r x) acc
        = (l.filter (fun x => ! p x)).foldl f acc := by
  intro l
  induction l with
  | nil => intro acc; rfl
  | cons x xs ih =>
      intro acc
      by_cases hp : p x
      · simp [List.filter_cons, hp, ih]
      · simp [List.filter_cons, hp, ih]

/-- C8 (amended): the exec projection (src/unnamed/part_003,
src/lib/core-commands.js) and the run projection of
src/lib/commands.js exclude every reserved underscore-prefixed scope
key from the spawned process environment: the projection depends only
on the non-reserved entries, appending a reserved entry such as the
registry handle changes nothing, and the filtering run variant equals
the exec variant over an empty base.  The superseded run variant of
src/unnamed/part_005 performs no such filtering; see the
counterexample. -/
theorem c8_reserved_keys_excluded :
    (∀ (base : EnvMap) (e1 e2 : Scope),
        e1.filter (fun kv => ! strStarts kv.1 "_")
          = e2.filter (fun kv => ! strStarts kv.1 "_") →
        execRenv base e1 = execRenv base e2)
    ∧ (∀ (base : EnvMap) (e : Scope) (k v : String), strStarts k "_" = true →
        execRenv base (e ++ [(k, v)]) = execRenv base e)
    ∧ (∀ (e : Scope), runRenv e = execRenv [] e) := by
  refine ⟨?_, ?_, ?_⟩
  · intro base e1 e2 h
    unfold execRenv
    rw [h]
  · intro base e k v h
    unfold execRenv
    rw [List.filter_append]
    simp [h]
  · intro e
    unfold runRenv execRenv
    exact foldl_filter_if (fun kv => strStarts kv.1 "_") _ e []

/-- Witness for C8: appending the reserved registry-handle entry to a
scope does not change the projected environment. -/
theorem c8_reserved_keys_excluded_witness :
    execRenv [] ([("cwd", ".")] ++ [("_commands", "X")]) = execRenv [] [("cwd", ".")] :=
  c8_reserved_keys_excluded.2.1 [] [("cwd", ".")] "_commands" "X" (by decide)

/-- Counterexample for C8: the run variant of src/unnamed/part_005
copies reserved keys into the child process environment.  Two scopes
that differ only in the underscore-prefixed registry-handle entry
receive different environments, and the reserved entry surfaces as an
upper-cased LOCOMOTE_ variable. -/
theorem c8_reserved_keys_excluded_counterexample :
    oldRunRenv [("_commands", "X")] ≠ oldRunRenv []
      ∧ getA (oldRunRenv [("_commands", "X")]) "LOCOMOTE__COMMANDS" = some "X" := by
  exact ⟨by decide, by decide⟩

/-- C7 (amended): the exec command raises exactly on a non-zero exit
code — the error message carrying the joined command line and the
code — with the stderr lines surfaced on the console log it produces,
and completes silently on a zero exit; the run command of
src/lib/commands.js never raises on a non-zero code, merely logging
it; and the git helper layer surfaces stderr lines through isOK while
reporting success or failure as a boolean rather than raising. -/
theorem c7_nonzero_exit_failure :
    (∀ (base : EnvMap) (env : Scope) (pr : EnvMap → String → List String → ProcResult)
        (command : String) (cargs : List String), command ≠ "" →
        (pr (execRenv base env) command cargs).code ≠ 0 →
        (coreExec base env (command :: cargs) pr).2
            = some ("Command \"" ++ joinSpace (command :: cargs) ++ "\" exited with code "
                ++ toString (pr (execRenv base env) command cargs).code)
          ∧ ∀ line ∈ (pr (execRenv base env) command cargs).errLines,
              LogLine.err line ∈ (coreExec base env (command :: cargs) pr).1)
    ∧ (∀ (base : EnvMap) (env : Scope) (pr : EnvMap → String → List String → ProcResult)
        (command : String) (cargs : List String), command ≠ "" →
        (pr (execRenv base env) command cargs).code = 0 →
        (coreExec base env (command :: cargs) pr).2 = none)
    ∧ (∀ (env : Scope) (pr : EnvMap → String → List String → ProcResult)
        (command : String) (cargs : List String) (w : String), command ≠ "" →
        getA env "workspace" = some w → w ≠ "" →
        (runCmd env (command :: cargs) pr).2 = none
          ∧ LogLine.out ("Command \"" ++ command ++ " " ++ joinSpace (command :: cargs)
              ++ "\" exited with code " ++ toString (pr (runRenv env) command cargs).code)
            ∈ (runCmd env (command :: cargs) pr).1)
    ∧ (∀ res : GitResult,
        ((isOK res).2 = true ↔ res.code = 0)
          ∧ ∀ line ∈ res.stderr, LogLine.err line ∈ (isOK res).1) := by
  refine ⟨?_, ?_, ?_, ?_⟩
  · intro base env pr command cargs hcmd hcode
    constructor
    · simp [coreExec, hcmd, hcode]
    · intro line hline
      simp [coreExec, hcmd, hcode]
      exact hline
  · intro base env pr command cargs hcmd hcode
    simp [coreExec, hcmd, hcode]
  · intro env pr command cargs w hcmd hw hwne
    constructor
    · simp [runCmd, hcmd, hw, hwne]
    · simp [runCmd, hcmd, hw, hwne]
  · intro res
    constructor
    · simp [isOK]
    · intro line hline
      simp [isOK]
      exact hline

/-- Witness for C7: a process exiting with code 2 makes exec raise
with the exact message, its stderr line present in the console
log. -/
theorem c7_nonzero_exit_failure_witness :
    (coreExec [] [] ["git", "push"]
        (fun _ _ _ => ProcResult.mk 2 ["o"] ["e"])).2
        = some ("Command \"git push\" exited with code "
            ++ toString (ProcResult.mk 2 ["o"] ["e"]).code) :=
  (c7_nonzero_exit_failure.1 [] [] (fun _ _ _ => ProcResult.mk 2 ["o"] ["e"])
    "git" ["push"] (by decide) (by decide)).1

/-- Counterexample for C7: the run command of src/lib/commands.js
invoked on a process that exits with code 1 completes with no
propagated error, refuting the claim that every non-zero exit
propagates as a failure through the exec and run actions. -/
theorem c7_nonzero_exit_failure_counterexample :
    (runCmd [("workspace", "w")] ["false"]
        (fun _ _ _ => ProcResult.mk 1 [] ["fatal"])).2 = none := by
  rfl

/-- C3, evaluated at the failing input: on a clean working copy the
cited git-push command (src/lib/core-commands.js) does not report the
no-change outcome — git add exits zero on a clean tree, so addAll
returns true and the command attempts the commit and the push, the
push call then throwing because the source omits the branch argument.
The part_003 variant of the same command behaves exactly as the claim
describes: a first call on a dirty tree commits and pushes once, and
a second call with no intervening changes creates no commit, performs
no push and reports the no-change outcome. -/
theorem c3_git_push_failing_input :
    (coreGitPush ⟨[], [], 1, 1⟩).2.1 = false
      ∧ (coreGitPush ⟨[], [], 1, 1⟩).2.2 = some "git-push: branch name is required"
      ∧ (p3GitPush ⟨[], [], 1, 1⟩ "test").2.1 = true
      ∧ (p3GitPush ⟨[], [], 1, 1⟩ "test").1.commits = 1
      ∧ (p3GitPush ⟨[], [], 1, 1⟩ "test").1.pushes = 1
      ∧ (p3GitPush ⟨["f"], [], 0, 0⟩ "test").1.commits = 1
      ∧ (p3GitPush ⟨["f"], [], 0, 0⟩ "test").1.pushes = 1
      ∧ (p3GitPush ((p3GitPush ⟨["f"], [], 0, 0⟩ "test").1) "test").1.commits = 1
      ∧ (p3GitPush ((p3GitPush ⟨["f"], [], 0, 0⟩ "test").1) "test").1.pushes = 1
      ∧ (p3GitPush ((p3GitPush ⟨["f"], [], 0, 0⟩ "test").1) "test").2.1 = true := by
  decide

theorem splitLines_ne_nil : ∀ l : List Char, splitLines l ≠ [] := by
  intro l
  cases l with
  | nil => simp [splitLines]
  | cons c rest =>
      by_cases hc : c = '\n'
      · simp [splitLines, hc]
      · simp only [splitLines, hc, if_false]
        cases splitLines rest with
        | nil => simp
        | cons h t => simp

theorem getLastD_indep {α : Type} : ∀ (l : List α) (d1 d2 : α), l ≠ [] →
    l.getLastD d1 = l.getLastD d2 := by
  intro l
  induction l with
  | nil => intro d1 d2 h; exact absurd rfl h
  | cons x xs ih =>
      intro d1 d2 h
      cases xs with
      | nil => rfl
      | cons y ys =>
          show (y :: ys).getLastD x = (y :: ys).getLastD x
          rfl

theorem dropLast_concat_getLastD {α : Type} : ∀ (l : List α) (d : α), l ≠ [] →
    l.dropLast ++ [l.getLastD d] = l := by
  intro l
  induction l with
  | nil => intro d h; exact absurd rfl h
  | cons x xs ih =>
      intro d h
      cases xs with
      | nil => rfl
      | cons y ys =>
          show (x :: y :: ys).dropLast ++ [(y :: ys).getLastD x] = x :: y :: ys
          rw [List.dropLast_cons₂]
          rw [List.cons_append]
          rw [ih x (by simp)]

theorem splitLines_append : ∀ x y : List Char,
    splitLines (x ++ y)
      = (splitLines x).dropLast
          ++ glueFirst ((splitLines x).getLastD []) (splitLines y) := by
  intro x
  induction x with
  | nil =>
      intro y
      show splitLines y = [].dropLast ++ glueFirst ([[]].getLastD []) (splitLines y)
      cases hy : splitLines y with
      | nil => exact absurd hy (splitLines_ne_nil y)
      | cons h t => simp [glueFirst]
  | cons c x2 ih =>
      intro y
      by_cases hc : c = '\n'
      · subst hc
        show splitLines ('\n' :: (x2 ++ y)) = _
        rw [show splitLines ('\n' :: (x2 ++ y)) = [] :: splitLines (x2 ++ y) by
          simp [splitLines]]
        rw [ih y]
        rw [show splitLines ('\n' :: x2) = [] :: splitLines x2 by simp [splitLines]]
        cases hx2 : splitLines x2 with
        | nil => exact absurd hx2 (splitLines_ne_nil x2)
        | cons h t =>
            show ([] : List Char) :: ((h :: t).dropLast ++ _) = _
            rw [List.dropLast_cons₂]
            show ([] : List Char) :: ((h :: t).dropLast ++ _)
              = ([] :: (h :: t).dropLast) ++ glueFirst (([] :: h :: t).getLastD []) _
            rw [show (([] : List Char) :: h :: t).getLastD [] = (h :: t).getLastD [] by
              show (h :: t).getLastD [] = (h :: t).getLastD []
              rfl]
            simp
      · have hsplit : splitLines (c :: (x2 ++ y))
            = match splitLines (x2 ++ y) with
              | [] => [[c]]
              | l :: ls => (c :: l) :: ls := by
          simp [splitLines, hc]
        cases hx2 : splitLines x2 with
        | nil => exact absurd hx2 (splitLines_ne_nil x2)
        | cons h t =>
            have hcx2 : splitLines (c :: x2)
                = match splitLines x2 with
                  | [] => [[c]]
                  | l :: ls => (c :: l) :: ls := by
              simp [splitLines, hc]
            rw [hcx2, hx2]
            cases t with
            | nil =>
                rw [List.cons_append, hsplit, ih y, hx2]
                show _ = [(c :: h)].dropLast ++ glueFirst ([(c :: h)].getLastD []) _
                cases hy : splitLines y with
                | nil => exact absurd hy (splitLines_ne_nil y)
                | cons hy1 ty1 =>
                    show (match ([h].dropLast ++ glueFirst ([h].getLastD []) (hy1 :: ty1) :
                        List (List Char)) with
                      | [] => [[c]]
                      | l :: ls => (c :: l) :: ls)
                      = [(c :: h)].dropLast ++ glueFirst ([(c :: h)].getLastD []) (hy1 :: ty1)
                    show (match ((h ++ hy1) :: ty1 : List (List Char)) with
                      | [] => [[c]]
                      | l :: ls => (c :: l) :: ls)
                      = ((c :: h) ++ hy1) :: ty1
                    show (c :: (h ++ hy1)) :: ty1 = ((c :: h) ++ hy1) :: ty1
                    rw [List.cons_append]
            | cons h2 t2 =>
                rw [List.cons_append, hsplit, ih y, hx2]
                show (match ((h :: h2 :: t2).dropLast
                      ++ glueFirst ((h :: h2 :: t2).getLastD []) (splitLines y) :
                      List (List Char)) with
                    | [] => [[c]]
                    | l :: ls => (c :: l) :: ls)
                  = ((c :: h) :: h2 :: t2).dropLast
                      ++ glueFirst (((c :: h) :: h2 :: t2).getLastD []) (splitLines y)
                rw [List.dropLast_cons₂, List.dropLast_cons₂]
                rw [show ((c :: h) :: h2 :: t2).getLastD [] = (h2 :: t2).getLastD (c :: h) from rfl]
                rw [show (h :: h2 :: t2).getLastD [] = (h2 :: t2).getLastD h from rfl]
                rw [getLastD_indep (h2 :: t2) (c :: h) h (by simp)]
                simp

theorem splitLines_getLastD_fix : ∀ l : List Char,
    splitLines ((splitLines l).getLastD []) = [(splitLines l).getLastD []] := by
  intro l
  induction l with
  | nil => rfl
  | cons c rest ih =>
      by_cases hc : c = '\n'
      · subst hc
        rw [show splitLines ('\n' :: rest) = [] :: splitLines rest by simp [splitLines]]
        cases hr : splitLines rest with
        | nil => exact absurd hr (splitLines_ne_nil rest)
        | cons h t =>
            rw [show (([] : List Char) :: h :: t).getLastD [] = (h :: t).getLastD [] from rfl]
            rw [hr] at ih
            exact ih
      · have hcx : splitLines (c :: rest)
            = match splitLines rest with
              | [] => [[c]]
              | l :: ls => (c :: l) :: ls := by
          simp [splitLines, hc]
        cases hr : splitLines rest with
        | nil => exact absurd hr (splitLines_ne_nil rest)
        | cons h t =>
            rw [hcx, hr]
            rw [hr] at ih
            cases t with
            | nil =>
                show splitLines ([(c :: h)].getLastD []) = [[(c :: h)].getLastD []]
                show splitLines (c :: h) = [(c :: h)]
                have hh : splitLines h = [h] := ih
                rw [show splitLines (c :: h)
                    = match splitLines h with
                      | [] => [[c]]
                      | l :: ls => (c :: l) :: ls by simp [splitLines, hc]]
                rw [hh]
            | cons h2 t2 =>
                show splitLines (((c :: h) :: h2 :: t2).getLastD [])
                  = [((c :: h) :: h2 :: t2).getLastD []]
                rw [show ((c :: h) :: h2 :: t2).getLastD [] = (h2 :: t2).getLastD (c :: h)
                  from rfl]
                rw [getLastD_indep (h2 :: t2) (c :: h) h (by simp)]
                rw [show (h2 :: t2).getLastD h = (h :: h2 :: t2).getLastD [] from rfl]
                exact ih

theorem dropLast_append_single {α : Type} : ∀ (l : List α) (a : α),
    (l ++ [a]).dropLast = l := by
  intro l a
  induction l with
  | nil => rfl
  | cons x xs ih =>
      cases xs with
      | nil => rfl
      | cons y ys =>
          show (x :: ((y :: ys) ++ [a])).dropLast = x :: y :: ys
          rw [show (y :: ys) ++ [a] = y :: (ys ++ [a]) from rfl]
          rw [List.dropLast_cons₂]
          rw [show y :: (ys ++ [a]) = (y :: ys) ++ [a] from rfl]
          rw [ih]

theorem getLastD_append_single {α : Type} : ∀ (l : List α) (a d : α),
    (l ++ [a]).getLastD d = a := by
  intro l
  induction l with
  | nil => intro a d; rfl
  | cons x xs ih =>
      intro a d
      cases xs with
      | nil => rfl
      | cons y ys =>
          show ((y :: ys) ++ [a]).getLastD x = a
          exact ih a x

theorem prFold_out : ∀ (events : List ProcEv) (st : PRState) (dOut : List Char),
    st.outSunk ++ [st.outBuf] = splitLines dOut →
    splitLines st.outBuf = [st.outBuf] →
    ((events.foldl prStep st).outSunk ++ [(events.foldl prStep st).outBuf]
        = splitLines (dOut ++ outData events))
      ∧ splitLines (events.foldl prStep st).outBuf
          = [(events.foldl prStep st).outBuf] := by
  intro events
  induction events with
  | nil =>
      intro st dOut h1 h2
      exact ⟨by simpa [outData] using h1, h2⟩
  | cons e rest ih =>
      intro st dOut h1 h2
      cases e with
      | errD c =>
          simp only [List.foldl_cons]
          have h3 := ih (prStep st (.errD c)) dOut h1 h2
          simpa [outData] using h3
      | outD c =>
          simp only [List.foldl_cons]
          have hS : splitLines (st.outBuf ++ c) = glueFirst st.outBuf (splitLines c) := by
            rw [splitLines_append, h2]
            rfl
          have h1a : (prStep st (.outD c)).outSunk ++ [(prStep st (.outD c)).outBuf]
              = splitLines (dOut ++ c) := by
            show (st.outSunk ++ (drain (st.outBuf ++ c) false).1)
                ++ [(drain (st.outBuf ++ c) false).2] = splitLines (dOut ++ c)
            rw [List.append_assoc]
            show st.outSunk ++ ((splitLines (st.outBuf ++ c)).dropLast
                ++ [(splitLines (st.outBuf ++ c)).getLastD []]) = _
            rw [dropLast_concat_getLastD _ _ (splitLines_ne_nil _)]
            rw [hS]
            rw [splitLines_append, ← h1]
            rw [dropLast_append_single, getLastD_append_single]
          have h2a : splitLines (prStep st (.outD c)).outBuf
              = [(prStep st (.outD c)).outBuf] := by
            show splitLines ((splitLines (st.outBuf ++ c)).getLastD [])
              = [(splitLines (st.outBuf ++ c)).getLastD []]
            exact splitLines_getLastD_fix (st.outBuf ++ c)
          have h3 := ih (prStep st (.outD c)) (dOut ++ c) h1a h2a
          simpa [outData] using h3

theorem prFold_err : ∀ (events : List ProcEv) (st : PRState) (dErr : List Char),
    st.errSunk ++ [st.errBuf] = splitLines dErr →
    splitLines st.errBuf = [st.errBuf] →
    ((events.foldl prStep st).errSunk ++ [(events.foldl prStep st).errBuf]
        = splitLines (dErr ++ errData events))
      ∧ splitLines (events.foldl prStep st).errBuf
          = [(events.foldl prStep st).errBuf] := by
  intro events
  induction events with
  | nil =>
      intro st dErr h1 h2
      exact ⟨by simpa [errData] using h1, h2⟩
  | cons e rest ih =>
      intro st dErr h1 h2
      cases e with
      | outD c =>
          simp only [List.foldl_cons]
          have h3 := ih (prStep st (.outD c)) dErr h1 h2
          simpa [errData] using h3
      | errD c =>
          simp only [List.foldl_cons]
          have hS : splitLines (st.errBuf ++ c) = glueFirst st.errBuf (splitLines c) := by
            rw [splitLines_append, h2]
            rfl
          have h1a : (prStep st (.errD c)).errSunk ++ [(prStep st (.errD c)).errBuf]
              = splitLines (dErr ++ c) := by
            show (st.errSunk ++ (drain (st.errBuf ++ c) false).1)
                ++ [(drain (st.errBuf ++ c) false).2] = splitLines (dErr ++ c)
            rw [List.append_assoc]
            show st.errSunk ++ ((splitLines (st.errBuf ++ c)).dropLast
                ++ [(splitLines (st.errBuf ++ c)).getLastD []]) = _
            rw [dropLast_concat_getLastD _ _ (splitLines_ne_nil _)]
            rw [hS]
            rw [splitLines_append, ← h1]
            rw [dropLast_append_single, getLastD_append_single]
          have h2a : splitLines (prStep st (.errD c)).errBuf
              = [(prStep st (.errD c)).errBuf] := by
            show splitLines ((splitLines (st.errBuf ++ c)).getLastD [])
              = [(splitLines (st.errBuf ++ c)).getLastD []]
            exact splitLines_getLastD_fix (st.errBuf ++ c)
          have h3 := ih (prStep st (.errD c)) (dErr ++ c) h1a h2a
          simpa [errData] using h3

/-- C9: the process runner streams subprocess output line by line:
feeding the data chunks through drain delivers exactly the lines of
the full stream contents to each sink, each line once and in order,
with the partial trailing line retained as the next buffer contents
until a newline arrives, every remaining buffered line flushed on
process close, and the invocation resolving with the process exit
code. -/
theorem c9_line_streaming :
    (∀ (events : List ProcEv) (code : Int),
        prExec events code
          = (splitLines (outData events), splitLines (errData events), code))
    ∧ (∀ buffer : List Char,
        (drain buffer false).1 ++ [(drain buffer false).2] = splitLines buffer)
    ∧ (∀ buffer : List Char, (drain buffer true).1 = splitLines buffer) := by
  refine ⟨?_, ?_, ?_⟩
  · intro events code
    have hout := prFold_out events ⟨[], [], [], []⟩ [] rfl rfl
    have herr := prFold_err events ⟨[], [], [], []⟩ [] rfl rfl
    unfold prExec
    have hflushOut : (drain (events.foldl prStep ⟨[], [], [], []⟩).outBuf true).1
        = [(events.foldl prStep ⟨[], [], [], []⟩).outBuf] := by
      show splitLines (events.foldl prStep ⟨[], [], [], []⟩).outBuf = _
      exact hout.2
    have hflushErr : (drain (events.foldl prStep ⟨[], [], [], []⟩).errBuf true).1
        = [(events.foldl prStep ⟨[], [], [], []⟩).errBuf] := by
      show splitLines (events.foldl prStep ⟨[], [], [], []⟩).errBuf = _
      exact herr.2
    rw [hflushOut, hflushErr]
    have h1 : (events.foldl prStep ⟨[], [], [], []⟩).outSunk
        ++ [(events.foldl prStep ⟨[], [], [], []⟩).outBuf] = splitLines (outData events) := by
      simpa using hout.1
    have h2 : (events.foldl prStep ⟨[], [], [], []⟩).errSunk
        ++ [(events.foldl prStep ⟨[], [], [], []⟩).errBuf] = splitLines (errData events) := by
      simpa using herr.1
    rw [h1, h2]
  · intro buffer
    show (splitLines buffer).dropLast ++ [(splitLines buffer).getLastD []] = splitLines buffer
    exact dropLast_concat_getLastD _ _ (splitLines_ne_nil buffer)
  · intro buffer
    rfl

theorem countA_eq_zero_of_hasA_false {α : Type} (l : List (String × α)) (k : String)
    (h : hasA l k = false) : countA l k = 0 := by
  induction l with
  | nil => rfl
  | cons kv rest ih =>
      simp only [hasA, Bool.or_eq_false_iff, decide_eq_false_iff_not] at h
      simp [countA, List.filter_cons, h.1]
      have := ih h.2
      simpa [countA] using this

theorem countA_pos_of_hasA {α : Type} (l : List (String × α)) (k : String)
    (h : hasA l k = true) : 1 ≤ countA l k := by
  induction l with
  | nil => simp [hasA] at h
  | cons kv rest ih =>
      simp only [hasA, Bool.or_eq_true, decide_eq_true_eq] at h
      by_cases hk : kv.1 = k
      · simp [countA, List.filter_cons, hk]
      · rcases h with h | h
        · exact absurd h hk
        · have := ih h
          simpa [countA, List.filter_cons, hk] using this

theorem not_mem_keysA_of_hasA_false {α : Type} (l : List (String × α)) (k : String)
    (h : hasA l k = false) : k ∉ keysA l := by
  induction l with
  | nil => simp [keysA]
  | cons kv rest ih =>
      simp only [hasA, Bool.or_eq_false_iff, decide_eq_false_iff_not] at h
      simp only [keysA, List.map_cons, List.mem_cons]
      rintro (he | he)
      · exact h.1 he.symm
      · exact ih h.2 he

theorem countA_eq_zero_of_not_mem_keysA {α : Type} (l : List (String × α)) (k : String)
    (h : k ∉ keysA l) : countA l k = 0 := by
  induction l with
  | nil => rfl
  | cons kv rest ih =>
      simp only [keysA, List.map_cons, List.mem_cons] at h
      push_neg at h
      have hk : ¬ (kv.1 = k) := fun e => h.1 e.symm
      have hr := ih (by simpa [keysA] using h.2)
      simpa [countA, List.filter_cons, hk] using hr

theorem countA_le_one_of_nodup {α : Type} (l : List (String × α)) (k : String)
    (h : (keysA l).Nodup) : countA l k ≤ 1 := by
  induction l with
  | nil => simp [countA]
  | cons kv rest ih =>
      simp only [keysA, List.map_cons, List.nodup_cons] at h
      by_cases hk : kv.1 = k
      · have h0 : countA rest k = 0 := by
          apply countA_eq_zero_of_not_mem_keysA
          rw [← hk]
          exact fun hm => h.1 (by simpa [keysA] using hm)
        simp [countA, List.filter_cons, hk]
        simpa [countA] using Nat.le_of_eq h0
      · have := ih (by simpa [keysA] using h.2)
        simpa [countA, List.filter_cons, hk] using this

theorem countA_map_replace {α : Type} (l : List (String × α)) (k : String) (v : α) :
    countA (l.map (fun kv => if kv.1 = k then (k, v) else kv)) k = countA l k := by
  induction l with
  | nil => rfl
  | cons kv rest ih =>
      by_cases hk : kv.1 = k
      · simpa [countA, List.filter_cons, hk] using ih
      · simpa [countA, List.filter_cons, hk] using ih

theorem countA_setA {α : Type} (l : List (String × α)) (k : String) (v : α)
    (h : (keysA l).Nodup) : countA (setA l k v) k = 1 := by
  unfold setA
  by_cases hh : hasA l k
  · simp only [hh, if_true]
    rw [countA_map_replace]
    exact Nat.le_antisymm (countA_le_one_of_nodup l k h) (countA_pos_of_hasA l k hh)
  · simp only [hh, Bool.false_eq_true, if_false]
    have h0 : countA l k = 0 := countA_eq_zero_of_hasA_false l k (by simpa using hh)
    simp [countA, List.filter_append] at *
    simpa [countA] using h0

theorem keysA_map_replace {α : Type} (l : List (String × α)) (k : String) (v : α) :
    keysA (l.map (fun kv => if kv.1 = k then (k, v) else kv)) = keysA l := by
  induction l with
  | nil => rfl
  | cons kv rest ih =>
      by_cases hk : kv.1 = k
      · simp only [keysA, List.map_cons] at *
        rw [show ((if kv.1 = k then (k, v) else kv) : String × α) = (k, v) by simp [hk]]
        rw [hk]
        exact congrArg _ ih
      · simp only [keysA, List.map_cons] at *
        rw [show ((if kv.1 = k then (k, v) else kv) : String × α) = kv by simp [hk]]
        exact congrArg _ ih

theorem keysA_setA_nodup {α : Type} (l : List (String × α)) (k : String) (v : α)
    (h : (keysA l).Nodup) : (keysA (setA l k v)).Nodup := by
  unfold setA
  by_cases hh : hasA l k
  · simp only [hh, if_true]
    rw [keysA_map_replace]
    exact h
  · simp only [hh, Bool.false_eq_true, if_false]
    have hnm : k ∉ keysA l := not_mem_keysA_of_hasA_false l k (by simpa using hh)
    have : keysA (l ++ [(k, v)]) = keysA l ++ [k] := by
      simp [keysA]
    rw [this]
    simp [List.nodup_append, h, hnm]

theorem readRecord_wbr (fs : FileStore) (rp n b c : String) :
    readRecord (writeBuildRecord fs rp n b c) rp
      = setA (readRecord fs rp) (n ++ "#" ++ b) c := by
  unfold writeBuildRecord readJSON writeJSON readRecord
  cases h : getA fs rp with
  | none =>
      simp only []
      rw [getA_setA_same]
      rfl
  | some m =>
      simp only []
      rw [getA_setA_same]
      rfl

/-- C5: the build record write is a read-modify-write merge: writing
commit H1 and then commit H2 for the same repository and branch
leaves exactly one entry for that key, valued H2; an unrelated
pre-existing key of the record is untouched by either write; and
reading a record file that does not exist yields the empty map
default rather than an error (the error arises only when no default
is supplied). -/
theorem c5_build_record_merge :
    (∀ (fs : FileStore) (path : String), getA fs path = none →
        readJSON fs path (some []) = Except.ok []
          ∧ readJSON fs path none = Except.error "ENOENT")
    ∧ (∀ (fs : FileStore) (rp n b c1 c2 : String),
        getA (readRecord (writeBuildRecord (writeBuildRecord fs rp n b c1) rp n b c2) rp)
            (n ++ "#" ++ b) = some c2)
    ∧ (∀ (fs : FileStore) (rp n b c1 c2 : String),
        (keysA (readRecord fs rp)).Nodup →
        countA (readRecord (writeBuildRecord (writeBuildRecord fs rp n b c1) rp n b c2) rp)
            (n ++ "#" ++ b) = 1)
    ∧ (∀ (fs : FileStore) (rp n b c k2 : String), k2 ≠ n ++ "#" ++ b →
        getA (readRecord (writeBuildRecord fs rp n b c) rp) k2
          = getA (readRecord fs rp) k2) := by
  refine ⟨?_, ?_, ?_, ?_⟩
  · intro fs path h
    unfold readJSON
    rw [h]
    exact ⟨rfl, rfl⟩
  · intro fs rp n b c1 c2
    rw [readRecord_wbr, readRecord_wbr]
    exact getA_setA_same _ _ _
  · intro fs rp n b c1 c2 h
    rw [readRecord_wbr, readRecord_wbr]
    exact countA_setA _ _ _ (keysA_setA_nodup _ _ _ h)
  · intro fs rp n b c k2 h
    rw [readRecord_wbr]
    exact getA_setA_ne _ _ _ _ h

/-- Witness for C5: two writes for the same repository and branch on
an empty store leave one entry holding the second commit. -/
theorem c5_build_record_merge_witness :
    countA (readRecord (writeBuildRecord
        (writeBuildRecord [] "t/.locomote-build-record.json" "repo" "master" "h1")
        "t/.locomote-build-record.json" "repo" "master" "h2")
        "t/.locomote-build-record.json") ("repo" ++ "#" ++ "master") = 1 :=
  c5_build_record_merge.2.2.1 [] "t/.locomote-build-record.json" "repo" "master"
    "h1" "h2" (by decide)

/-- C6 (amended): in the rebuild trigger watchSource, only change
events are batched, into a single list; a flush tick whose captured
list is non-empty performs exactly one build invocation carrying
exactly the captured files and resets the batch, while a tick that
captures an empty batch performs zero build invocations.  In the
file-database updater watchFiles, add and change events enter the
additions list and unlink events the deletions list, and every tick
invokes addFiles and removeFiles once with the captured lists —
also when they are empty. -/
theorem c6_change_batcher :
    (∀ st : WSState, st.changes = [] → wsTick st = st)
    ∧ (∀ st : WSState, st.changes ≠ [] →
        wsTick st = ⟨[], st.builds ++ [st.changes]⟩)
    ∧ (∀ (a b c : String) (st : WSState),
        [FEvent.addE a, FEvent.changeE b, FEvent.unlinkE c].foldl wsEvent st
          = { st with changes := st.changes ++ [b] })
    ∧ (∀ (a b c : String) (st : WFState),
        [FEvent.addE a, FEvent.changeE b, FEvent.unlinkE c].foldl wfEvent st
          = { st with
              additions := st.additions ++ [a, b],
              deletions := st.deletions ++ [c] })
    ∧ (∀ st : WFState,
        (wfTick st).addCalls = st.addCalls ++ [st.additions]
          ∧ (wfTick st).removeCalls = st.removeCalls ++ [st.deletions]) := by
  refine ⟨?_, ?_, ?_, ?_, ?_⟩
  · intro st h
    simp [wsTick, h]
  · intro st h
    simp only [wsTick, ne_eq, List.length_eq_zero]
    simp [h]
  · intro a b c st
    simp [wsEvent]
  · intro a b c st
    simp [wfEvent]
  · intro st
    exact ⟨rfl, rfl⟩

/-- Witness for C6: a tick on an empty batch leaves the rebuild
trigger unchanged, performing no build invocation. -/
theorem c6_change_batcher_witness :
    wsTick ⟨[], [["x"]]⟩ = ⟨[], [["x"]]⟩ :=
  c6_change_batcher.1 ⟨[], [["x"]]⟩ rfl

/-- Counterexample for C6: in the rebuild trigger, the events
add(a.txt), change(b.txt), remove(c.txt) inside one window followed
by a flush tick yield one build invocation whose file list is only
b.txt — the added file and the removed file are not captured, so the
claimed added set of a.txt and b.txt with removed set c.txt is wrong;
and in watchFiles a tick that captures an empty batch still performs
its update invocation. -/
theorem c6_change_batcher_counterexample :
    (wsTick ([FEvent.addE "a.txt", FEvent.changeE "b.txt", FEvent.unlinkE "c.txt"].foldl
        wsEvent ⟨[], []⟩)).builds = [["b.txt"]]
      ∧ (["b.txt"] : List String) ≠ ["a.txt", "b.txt"]
      ∧ (wfTick ⟨[], [], [], []⟩).addCalls = [[]] := by
  refine ⟨by decide, by decide, rfl⟩

theorem isPrefixOf_append_left : ∀ (l1 l2 : List Char), l1.isPrefixOf (l1 ++ l2) = true := by
  intro l1 l2
  induction l1 with
  | nil => simp [List.isPrefixOf]
  | cons a l ih => simp [List.isPrefixOf, ih]

theorem strStarts_append_self (p b : String) : strStarts (p ++ b) p = true := by
  unfold strStarts
  rw [String.data_append]
  exact isPrefixOf_append_left p.data b.data

theorem strDrop_append_self (p b : String) : strDrop (p ++ b) p.length = b := by
  unfold strDrop
  rw [String.data_append]
  rw [show p.length = p.data.length from rfl]
  rw [List.drop_left]

theorem strip_map_self : ∀ l : List String,
    ((l.map (fun b => remoteRefHead ++ b)).filter
        (fun b => strStarts b remoteRefHead)).map
      (fun b => strDrop b remoteRefHead.length) = l := by
  intro l
  induction l with
  | nil => rfl
  | cons b rest ih =>
      simp only [List.map_cons, List.filter_cons, strStarts_append_self, if_true]
      rw [strDrop_append_self]
      exact congrArg _ ih

theorem listAllBranches_model (r : CRepo)
    (h : ∀ b ∈ r.localB, strStarts ("refs/heads/" ++ b) remoteRefHead = false) :
    listAllBranches (branchARefs r) = r.remoteB := by
  unfold listAllBranches branchARefs
  rw [List.filter_append]
  have h1 : (r.localB.map (fun b => "refs/heads/" ++ b)).filter
      (fun b => strStarts b remoteRefHead) = [] := by
    apply List.filter_eq_nil.mpr
    intro x hx
    rcases List.mem_map.mp hx with ⟨b, hb, rfl⟩
    simp [h b hb]
  rw [h1, List.nil_append]
  exact strip_map_self r.remoteB

/-- C4 (amended): checkoutBranch first lists the remote-tracking
branch refs; a branch already present remotely is checked out as a
local tracking branch with a single checkout -B from its remote ref
(the source performs no separate pull inside checkout); a branch not
present remotely is created as a new orphan branch whose index is
emptied and whose working tree is cleaned, leaving zero tracked
files and a clean status; and a later call for a branch that has
meanwhile appeared remotely takes the plain checkout path, with no
orphan re-creation. -/
theorem c4_checkout_branch :
    (∀ (r : CRepo) (branch : String),
        (listAllBranches (branchARefs r)).contains branch = true →
        (checkoutG r branch).2
            = [["branch", "-a", "--format", "%(refname)"],
               ["checkout", "-B", branch, "origin/" ++ branch]]
          ∧ (checkoutG r branch).1.tracked = r.tracked
          ∧ (checkoutG r branch).1.head = branch)
    ∧ (∀ (r : CRepo) (branch : String),
        (listAllBranches (branchARefs r)).contains branch = false →
        (checkoutG r branch).2
            = [["branch", "-a", "--format", "%(refname)"],
               ["checkout", "--orphan", branch],
               ["rm", "--cached", "-r", "."],
               ["clean", "-fd"]]
          ∧ (checkoutG r branch).1.tracked = []
          ∧ (checkoutG r branch).1.untracked = []
          ∧ (checkoutG r branch).1.head = branch)
    ∧ (∀ r : CRepo,
        (∀ b ∈ r.localB, strStarts ("refs/heads/" ++ b) remoteRefHead = false) →
        listAllBranches (branchARefs r) = r.remoteB) := by
  refine ⟨?_, ?_, ?_⟩
  · intro r branch h
    unfold checkoutG
    rw [h]
    exact ⟨rfl, rfl, rfl⟩
  · intro r branch h
    unfold checkoutG
    rw [h]
    exact ⟨rfl, rfl, rfl, rfl⟩
  · intro r h
    exact listAllBranches_model r h

/-- Witness for C4: checking out a branch that does not yet exist
remotely produces the orphan bootstrap sequence and a repository
with zero tracked files and a clean working tree. -/
theorem c4_checkout_branch_witness :
    (checkoutG ⟨["master"], [], "master", ["f1"], ["u1"]⟩ "test").2
        = [["branch", "-a", "--format", "%(refname)"],
           ["checkout", "--orphan", "test"],
           ["rm", "--cached", "-r", "."],
           ["clean", "-fd"]]
      ∧ (checkoutG ⟨["master"], [], "master", ["f1"], ["u1"]⟩ "test").1.tracked = []
      ∧ (checkoutG ⟨["master"], [], "master", ["f1"], ["u1"]⟩ "test").1.untracked = []
      ∧ (checkoutG ⟨["master"], [], "master", ["f1"], ["u1"]⟩ "test").1.head = "test" :=
  c4_checkout_branch.2.1 ⟨["master"], [], "master", ["f1"], ["u1"]⟩ "test" (by decide)

/-- Counterexample for C4: on a repository where the requested branch
exists remotely, checkout issues exactly the branch listing and one
checkout -B — no git pull follows, so the claimed fast-forward pull
after the tracking checkout does not happen. -/
theorem c4_checkout_branch_counterexample :
    (checkoutG ⟨["master"], ["test"], "master", ["f"], []⟩ "test").2
        = [["branch", "-a", "--format", "%(refname)"],
           ["checkout", "-B", "test", "origin/test"]]
      ∧ "pull" ∉ ((checkoutG ⟨["master"], ["test"], "master", ["f"], []⟩ "test").2).map
          (fun call => call.headD "") := by
  refine ⟨by decide, by decide⟩

/-- Witness for C10: an empty-string argument leaves the scope key
with its previous binding. -/
theorem c10_falsy_args_unbound_witness :
    getA (bindArgs ["x"] [""] [] [("p", "q")]) "x" = getA [("p", "q")] "x" :=
  c10_falsy_args_unbound.2 ["x"] [""] [] [("p", "q")] "x"
    (fun j hj => by
      cases j with
      | zero => exact Or.inr rfl
      | succ j2 => simp [List.get?] at hj)

end BuildTools
